import Mathlib

/-!
# Verification of the devagent scheduler/runner core

A shallow embedding of the Go sources of the `devworkers/devagent`
repository (packages `runner`, `scheduler`, `util`, `store`, command
entry points), together with proofs settling the frozen claims about
the natural-language specification.

Conventions used throughout:
* Strings are handled as `List Char` where induction is needed; the
  `String` wrappers mirror the Go function signatures.
* Wall-clock time is abstracted: instants are minutes since the Unix
  epoch (`Int`), a time zone is a function from instants to a UTC
  offset in minutes, and step durations (a real-time measurement) are
  not modelled.
* Filesystem and subprocess effects are modelled as explicit effect
  traces; external oracles (exit codes of shell commands, existence of
  files, the time-zone database) are parameters.
-/

namespace Devagent

/-- The whitespace class of `strings.TrimSpace` (the ASCII part of
`unicode.IsSpace`). -/
def isSpaceGo (c : Char) : Bool :=
  c = ' ' || c = '\t' || c = '\n' || c = '\x0b' || c = '\x0c' || c = '\r'

/-- Embedding of `strings.TrimSpace`. -/
def trimString (s : String) : String :=
  ⟨((s.data.dropWhile isSpaceGo).reverse.dropWhile isSpaceGo).reverse⟩

/-- Lower-casing by code point (`strings.ToLower` on the ASCII names
this program compares). -/
def toLowerString (s : String) : String :=
  ⟨s.data.map Char.toLower⟩

/-! ## Redaction (runner.redact)

The Go source applies the regexp `(?i)(api[_-]?key|token|secret)=\S+`
with replacement `$1=<redacted>` (`ReplaceAllString`): non-overlapping
leftmost matches, the matched value being the maximal run of
non-whitespace characters after the `=`, the key preserved with its
original case.  `isSpaceRE` is RE2's `\s` class `[\t\n\f\r ]`. -/

def isSpaceRE (c : Char) : Bool :=
  c = ' ' || c = '\t' || c = '\n' || c = '\x0c' || c = '\r'

/-- Match `pat` (a lowercase literal) case-insensitively against a
prefix of the input; returns the consumed input characters (original
case) and the remainder. -/
def matchLower : List Char → List Char → Option (List Char × List Char)
  | [], rest => some ([], rest)
  | _ :: _, [] => none
  | p :: ps, c :: cs =>
    if c.toLower = p then
      (matchLower ps cs).map (fun r => (c :: r.1, r.2))
    else none

/-- The key alternatives of the redaction regexp, in alternation order
(`api[_-]?key` expands to its three literal forms). -/
def redactKeys : List (List Char) :=
  ["api_key".data, "api-key".data, "apikey".data, "token".data, "secret".data]

def matchKeyAt (cs : List Char) : Option (List Char × List Char) :=
  redactKeys.findSome? (fun k => matchLower k cs)

def redactedTail : List Char := "=<redacted>".data

/-- Try to match the full redaction pattern at the head of the input;
on success, return the replacement text and the input after the
matched value. -/
def tryMatch (cs : List Char) : Option (List Char × List Char) :=
  match matchKeyAt cs with
  | none => none
  | some (kcs, rest) =>
    match rest with
    | c :: d :: ds =>
      if c = '=' && !isSpaceRE d then
        some (kcs ++ redactedTail, (d :: ds).dropWhile (fun e => !isSpaceRE e))
      else none
    | _ => none

/-- Fuel-indexed scan; `redactList` supplies fuel `cs.length`, which is
always sufficient (`tryMatch` consumes at least one character). -/
def redactGo : Nat → List Char → List Char
  | 0, rest => rest
  | _ + 1, [] => []
  | fuel + 1, c :: rest =>
    match tryMatch (c :: rest) with
    | some r => r.1 ++ redactGo fuel r.2
    | none => c :: redactGo fuel rest

def redactList (cs : List Char) : List Char :=
  redactGo cs.length cs

/-- Embedding of `runner.redact`. -/
def redact (s : String) : String :=
  ⟨redactList s.data⟩

/-- `discrep pat pat' = true` iff the two lists differ at some position
within their common length (used to show that the wrong key
alternatives fail to match). -/
def discrep : List Char → List Char → Bool
  | p :: ps, q :: qs => if p = q then discrep ps qs else true
  | _, _ => false

/-- `hasSeg needle hay = true` iff `needle` occurs contiguously in
`hay` (substring containment, for the literal-secret checks). -/
def hasSeg (needle : List Char) : List Char → Bool
  | [] => needle.isEmpty
  | c :: rest => needle.isPrefixOf (c :: rest) || hasSeg needle rest

/-! ## Line-buffered redacting writer (runner.redactingWriter)

`Write` appends to an internal buffer and flushes every completed line
(`flushLines`), writing `redact(line) + "\n"` for each; `Flush` (called
once at stream close) writes any remaining bytes as one final redacted
line, first trimming trailing newlines.  The buffer between calls is
explicit state here. -/

/-- Scan of `flushLines`: `cur` is the partial line accumulated so far;
returns (bytes written out, leftover buffer). -/
def flushAux : List Char → List Char → List Char × List Char
  | cur, [] => ([], cur)
  | cur, c :: rest =>
    if c = '\n' then
      (redactList cur ++ '\n' :: (flushAux [] rest).1, (flushAux [] rest).2)
    else flushAux (cur ++ [c]) rest

/-- `strings.TrimRight(s, "\n")`: drop trailing newline characters. -/
def trimRightNL (l : List Char) : List Char :=
  (l.reverse.dropWhile (fun c => c = '\n')).reverse

/-- Embedding of `redactingWriter.Flush`. -/
def finalFlush (buf : List Char) : List Char :=
  if buf = [] then [] else redactList (trimRightNL buf) ++ ['\n']

/-- Feed the chunks one `Write` call at a time, starting from buffer
`buf`; at end-of-stream, `Flush`.  Returns everything persisted. -/
def writerRun : List Char → List (List Char) → List Char
  | buf, [] => finalFlush buf
  | buf, p :: ps =>
    (flushAux [] (buf ++ p)).1 ++ writerRun (flushAux [] (buf ++ p)).2 ps

/-- The persisted output of the redacting writer over a whole stream of
`Write` calls. -/
def runWriter (chunks : List (List Char)) : List Char :=
  writerRun [] chunks

/-- Reference function: per-line redaction of a whole stream (`cur` is
the current partial line).  Every completed line is redacted and
terminated; a nonempty unterminated tail becomes one final line. -/
def redactStreamAux : List Char → List Char → List Char
  | cur, [] => if cur = [] then [] else redactList cur ++ ['\n']
  | cur, c :: rest =>
    if c = '\n' then redactList cur ++ '\n' :: redactStreamAux [] rest
    else redactStreamAux (cur ++ [c]) rest

def redactStream (s : List Char) : List Char :=
  redactStreamAux [] s

/-! ## Step runner (runner.Run)

The run is modelled as a function of: whether the expanded repo path
exists, the step list, an exit-code oracle for shell commands (`none`
models a launch failure that is not an `ExitError`), the declared
output-copy candidates and a file-existence oracle.  It returns the
summary data (step records and final status) or an error, plus the
trace of filesystem/subprocess effects in order.  Timestamps, step
durations and log file contents are abstracted away (the log pipeline
is verified separately via `runWriter`). -/

inductive RunEff
  | mkRunDir
  | createLog
  | echoCmd (cmd : String)
  | execCmd (cmd : String)
  | writeSummaryFile
  | copyOut (path : String)
deriving DecidableEq, Repr

structure StepSummary where
  cmd : String
  exitCode : Int
deriving DecidableEq, Repr

structure LoopOut where
  recs : List StepSummary
  status : String
  effs : List RunEff
  aborted : Bool
deriving DecidableEq, Repr

/-- The step loop of `runner.Run`: trim, skip empties, echo, execute,
record; on nonzero exit mark `failed` and stop; on launch failure abort
the whole run. -/
def runSteps (ex : String → Option Int) : List String → LoopOut
  | [] => ⟨[], "success", [], false⟩
  | s :: rest =>
    let cmdText := trimString s
    if cmdText = "" then runSteps ex rest
    else
      match ex cmdText with
      | none => ⟨[], "success", [.echoCmd cmdText, .execCmd cmdText], true⟩
      | some code =>
        if code = 0 then
          let r := runSteps ex rest
          ⟨⟨cmdText, code⟩ :: r.recs, r.status, .echoCmd cmdText :: .execCmd cmdText :: r.effs, r.aborted⟩
        else
          ⟨[⟨cmdText, code⟩], "failed", [.echoCmd cmdText, .execCmd cmdText], false⟩

/-- The best-effort output copying after the summary is written: trim,
skip empties, copy a candidate iff it exists. -/
def copyEffects (outputs : List String) (existsF : String → Bool) : List RunEff :=
  outputs.filterMap (fun cand =>
    let c := trimString cand
    if c = "" then none
    else if existsF c then some (.copyOut c) else none)

/-- Embedding of `runner.Run`. -/
def runModel (repoExists : Bool) (steps : List String) (ex : String → Option Int)
    (outputs : List String) (existsF : String → Bool) :
    Except String (List StepSummary × String) × List RunEff :=
  if repoExists then
    let r := runSteps ex steps
    if r.aborted then
      (Except.error "step launch failure", [RunEff.mkRunDir, RunEff.createLog] ++ r.effs)
    else
      (Except.ok (r.recs, r.status),
       [RunEff.mkRunDir, RunEff.createLog] ++ r.effs ++ [RunEff.writeSummaryFile]
         ++ copyEffects outputs existsF)
  else (Except.error "repo path not accessible", [])

/-! ## Cron schedule semantics and the scheduler (scheduler.Daemon)

Modelled from the spec: the third-party cron engine is abstracted as a
table of entries; an entry parsed from a plain 5-field expression (the
parser is configured as `Minute | Hour | Dom | Month | Dow`, no
time-zone prefix) fires at the instants whose wall-clock fields *in the
engine's own location* (`time.Local`, here the `hostLoc` parameter)
match the expression.  The parser model covers `*`, single numbers and
ranges, which is what the standard 5-field semantics needs here; the
day-of-month/day-of-week rule is the standard one (intersection when
either is `*`, union otherwise).  Calendar arithmetic is the standard
civil-from-days algorithm; a `Loc` maps an instant to its UTC offset in
minutes, so DST-capable zones are representable. -/

def splitWSAux : List Char → List Char → List (List Char)
  | cur, [] => if cur = [] then [] else [cur]
  | cur, c :: rest =>
    if c = ' ' ∨ c = '\t' then
      if cur = [] then splitWSAux [] rest else cur :: splitWSAux [] rest
    else splitWSAux (cur ++ [c]) rest

def charDigit? (c : Char) : Option Nat :=
  if '0' ≤ c ∧ c ≤ '9' then some (c.toNat - '0'.toNat) else none

def natOfCharsAux : Nat → List Char → Option Nat
  | acc, [] => some acc
  | acc, c :: rest =>
    match charDigit? c with
    | some d => natOfCharsAux (acc * 10 + d) rest
    | none => none

def natOfChars (l : List Char) : Option Nat :=
  if l = [] then none else natOfCharsAux 0 l

inductive CronField
  | all
  | single (n : Nat)
  | range (lo hi : Nat)
deriving DecidableEq, Repr

def CronField.isAll : CronField → Bool
  | .all => true
  | _ => false

def CronField.matchesVal : CronField → Nat → Bool
  | .all, _ => true
  | .single n, v => v == n
  | .range lo hi, v => decide (lo ≤ v) && decide (v ≤ hi)

structure CronFields where
  minute : CronField
  hour : CronField
  dom : CronField
  month : CronField
  dow : CronField
deriving DecidableEq, Repr

def parseField (cs : List Char) (lo hi : Nat) : Option CronField :=
  if cs = ['*'] then some .all
  else
    match cs.dropWhile (fun c => c != '-') with
    | [] =>
      (natOfChars cs).bind (fun n =>
        if lo ≤ n ∧ n ≤ hi then some (.single n) else none)
    | _ :: b =>
      (natOfChars (cs.takeWhile (fun c => c != '-'))).bind fun x =>
        (natOfChars b).bind fun y =>
          if lo ≤ x ∧ x ≤ y ∧ y ≤ hi then some (.range x y) else none

def parseCron (s : String) : Option CronFields :=
  match splitWSAux [] s.data with
  | [g1, g2, g3, g4, g5] =>
    (parseField g1 0 59).bind fun mi =>
      (parseField g2 0 23).bind fun h =>
        (parseField g3 1 31).bind fun dm =>
          (parseField g4 1 12).bind fun mo =>
            (parseField g5 0 6).bind fun dw =>
              some ⟨mi, h, dm, mo, dw⟩
  | _ => none

/-- A location: UTC offset in minutes as a function of the instant
(minutes since the Unix epoch). -/
def Loc : Type := Int → Int

def utcLoc : Loc := fun _ => 0

structure TimeFields where
  minute : Nat
  hour : Nat
  dom : Nat
  month : Nat
  dow : Nat
deriving DecidableEq, Repr

/-- Standard civil-from-days calendar algorithm: day count since
1970-01-01 to (year, month, day). -/
def civilFromDays (z0 : Int) : Int × Int × Int :=
  let z := z0 + 719468
  let era := z.ediv 146097
  let doe := z.emod 146097
  let yoe := (doe - doe.ediv 1460 + doe.ediv 36524 - doe.ediv 146096).ediv 365
  let y := yoe + era * 400
  let doy := doe - (365 * yoe + yoe.ediv 4 - yoe.ediv 100)
  let mp := (5 * doy + 2).ediv 153
  let d := doy - (153 * mp + 2).ediv 5 + 1
  let m := if mp < 10 then mp + 3 else mp - 9
  (if m ≤ 2 then y + 1 else y, m, d)

/-- Wall-clock fields of instant `t` in location `loc` (day-of-week:
Sunday = 0). -/
def fieldsAt (loc : Loc) (t : Int) : TimeFields :=
  let lt := t + loc t
  let days := lt.ediv 1440
  let mins := lt.emod 1440
  let cd := civilFromDays days
  { minute := (mins.emod 60).toNat
    hour := (mins.ediv 60).toNat
    dom := cd.2.2.toNat
    month := cd.2.1.toNat
    dow := ((days + 4).emod 7).toNat }

/-- Whether a parsed 5-field expression matches given wall-clock
fields. -/
def matchesSchedule (f : CronFields) (tf : TimeFields) : Bool :=
  f.minute.matchesVal tf.minute && f.hour.matchesVal tf.hour &&
    f.month.matchesVal tf.month &&
    (if f.dom.isAll || f.dow.isAll then
      f.dom.matchesVal tf.dom && f.dow.matchesVal tf.dow
    else
      f.dom.matchesVal tf.dom || f.dow.matchesVal tf.dow)

/-- A job row as the scheduler sees it (`store.Job`, the fields the
scheduler reads). -/
structure JobM where
  name : String
  cron : String
  timezone : String
  yamlPath : String
deriving DecidableEq, Repr

/-- A registration in the cron engine; `loc` is the location the
engine evaluates the schedule in, `tzLoc` the location the execution
callback captured (embedding of `scheduleJob`'s closure). -/
structure CronEntry where
  id : Nat
  jobName : String
  fields : CronFields
  loc : Loc
  tzLoc : Loc

/-- The daemon's mutable scheduling state: the `jobs` name-to-EntryID
map and the engine's entry table (`nextID` models the engine's entry ID
counter). -/
structure SchedState where
  jobs : List (String × Nat)
  entries : List CronEntry
  nextID : Nat

def emptySchedState : SchedState := ⟨[], [], 0⟩

/-- Embedding of `util.ResolveLocation`; `lookup` is the tz database
(`time.LoadLocation`), `localLoc` is `time.Local`. -/
def ResolveLocation (lookup : String → Option Loc) (localLoc : Loc) (name : String) : Loc :=
  let key := toLowerString (trimString name)
  if key = "" ∨ key = "local" then localLoc
  else if key = "utc" then utcLoc
  else
    match lookup name with
    | some l => l
    | none => localLoc

/-- Embedding of `scheduler.Daemon.scheduleJob`: parse the cron spec
(failure is reported to the caller), resolve the job's timezone, and
register the schedule with the engine.  The engine entry keeps the
engine's own location `hostLoc` — the plain 5-field parser attaches no
per-job location — while the resolved `tzLoc` is only captured by the
callback (it is used for the run-result timestamp). -/
def scheduleJob (lookup : String → Option Loc) (hostLoc : Loc) (s : SchedState)
    (job : JobM) : Option SchedState :=
  match parseCron job.cron with
  | none => none
  | some flds =>
    some { jobs := s.jobs ++ [(job.name, s.nextID)]
           entries := s.entries ++
             [{ id := s.nextID, jobName := job.name, fields := flds, loc := hostLoc,
                tzLoc := ResolveLocation lookup hostLoc job.timezone }]
           nextID := s.nextID + 1 }

def keysOf (s : SchedState) : List String := s.jobs.map Prod.fst

/-- First loop of `scheduler.Daemon.reload`: walk the repository
listing; drop each seen name from `existing`; schedule jobs not yet
registered (a parse error is logged and the job skipped). -/
def reloadAdd (lookup : String → Option Loc) (hostLoc : Loc) :
    SchedState → List String → List JobM → SchedState × List String
  | s, ex, [] => (s, ex)
  | s, ex, job :: rest =>
    let ex' := ex.filter (fun n => n != job.name)
    if s.jobs.any (fun pr => pr.1 == job.name) then
      reloadAdd lookup hostLoc s ex' rest
    else
      match scheduleJob lookup hostLoc s job with
      | none => reloadAdd lookup hostLoc s ex' rest
      | some s' => reloadAdd lookup hostLoc s' ex' rest

/-- Second loop of `reload`: unregister every name still marked
existing (present before, absent from the repository listing). -/
def reloadRemove : SchedState → List String → SchedState
  | s, [] => s
  | s, name :: rest =>
    match s.jobs.find? (fun pr => pr.1 == name) with
    | some pr =>
      reloadRemove
        { s with entries := s.entries.filter (fun e => e.id != pr.2)
                 jobs := s.jobs.filter (fun q => q.1 != name) } rest
    | none => reloadRemove s rest

/-- Embedding of `scheduler.Daemon.reload` (one reconciliation pass
over repository listing `repo`). -/
def reload (lookup : String → Option Loc) (hostLoc : Loc) (s : SchedState)
    (repo : List JobM) : SchedState :=
  reloadRemove (reloadAdd lookup hostLoc s (keysOf s) repo).1
    (reloadAdd lookup hostLoc s (keysOf s) repo).2

/-- Whether some registered entry fires at instant `t`. -/
def firesAny (s : SchedState) (t : Int) : Bool :=
  s.entries.any (fun e => matchesSchedule e.fields (fieldsAt e.loc t))

/-- America/New_York in winter (EST, UTC-05:00); the instants examined
below are in standard time, so the fixed offset is faithful there. -/
def nyWinterLoc : Loc := fun _ => -300

/-- A tz database that knows America/New_York. -/
def nyLookup : String → Option Loc :=
  fun n => if n = "America/New_York" then some nyWinterLoc else none

def nyJob : JobM :=
  { name := "morning-report", cron := "0 9 * * 1-5",
    timezone := "America/New_York", yamlPath := "wf.yml" }

/-- The scheduler state after registering `nyJob` on a daemon whose
`time.Local` is UTC. -/
def nyDaemonState : SchedState :=
  (scheduleJob nyLookup utcLoc emptySchedState nyJob).getD emptySchedState

/-- Monday 2024-01-01 09:00 UTC, in minutes since the epoch
(19723 days * 1440 + 540). -/
def mondayNineUTC : Int := 28401660

/-! ## Execution lock and execution paths (scheduler.execute,
scheduler.acquireLock, cmd doRun)

`acquireLock` is a function of the OS outcomes: whether open/creating
the lock file succeeded, and the `flock(LOCK_EX|LOCK_NB)` result.
`executeTrace` and `doRunTrace` record, in order, the observable
actions of the daemon's execution callback and of the manual `run`
command (`doRun`); the deferred `releaseLock` runs on every exit path
after a successful acquire. -/

inductive LockErr
  | alreadyRunning
  | generic
deriving DecidableEq, Repr

inductive FlockOutcome
  | ok
  | wouldBlock
  | otherErr
deriving DecidableEq, Repr

/-- Embedding of `scheduler.acquireLock` (`openOk` also covers the
locks-directory creation). -/
def acquireLock (openOk : Bool) (flockRes : FlockOutcome) : Except LockErr Unit :=
  if openOk then
    match flockRes with
    | .ok => Except.ok ()
    | .wouldBlock => Except.error .alreadyRunning
    | .otherErr => Except.error .generic
  else Except.error .generic

inductive ExecAct
  | tryAcquire (name : String)
  | lockAcquired (name : String)
  | loadWorkflowFile (path : String)
  | runWorkflow (name : String)
  | updateResult (name status : String)
  | releaseLock (name : String)
deriving DecidableEq, Repr

def ExecAct.isTryAcquire : ExecAct → Bool
  | .tryAcquire _ => true
  | _ => false

def ExecAct.isRunWorkflow : ExecAct → Bool
  | .runWorkflow _ => true
  | _ => false

/-- Embedding of `scheduler.Daemon.execute`: the action trace as a
function of the lock-acquire result, whether the workflow loads, and
the run outcome (`none` = `runner.Run` returned an error, recorded as a
failed result). -/
def executeTrace (lockRes : Except LockErr Unit) (loadOk : Bool)
    (runStatus : Option String) (job : JobM) : List ExecAct :=
  match lockRes with
  | .error _ => [.tryAcquire job.name]
  | .ok _ =>
    [.tryAcquire job.name, .lockAcquired job.name, .loadWorkflowFile job.yamlPath] ++
      (if loadOk then
        [.runWorkflow job.name] ++
          (match runStatus with
           | none => [.updateResult job.name "failed"]
           | some st => [.updateResult job.name st])
      else []) ++
      [.releaseLock job.name]

/-- Embedding of the manual `run` command (`doRun` in the command entry
point): load `.devagent.yml` from the working directory, run it, record
the result.  No lock is involved anywhere on this path. -/
def doRunTrace (loadOk : Bool) (wfName : String) (runStatus : Option String) :
    List ExecAct :=
  [.loadWorkflowFile ".devagent.yml"] ++
    (if loadOk then
      [.runWorkflow wfName] ++
        (match runStatus with
         | none => []
         | some st => [.updateResult wfName st])
    else [])

/-! ## Store (store.GetJob)

The jobs table keyed by primary-key `name`; `dbFail` models a real
database failure of the query.  `sql.ErrNoRows` from `Scan` is mapped
to a `(nil, nil)` absent result. -/

def GetJob (dbFail : Bool) (rows : List JobM) (name : String) :
    Except String (Option JobM) :=
  if dbFail then Except.error "query failed"
  else
    match rows.find? (fun j => j.name == name) with
    | none => Except.ok none
    | some j => Except.ok (some j)

/-! ## Supporting lemmas: redaction -/

theorem matchLower_decomp : ∀ (pat cs con rest : List Char),
    matchLower pat cs = some (con, rest) →
    cs = con ++ rest ∧ con.map Char.toLower = pat
  | [], cs, con, rest, h => by
    simp only [matchLower, Option.some.injEq, Prod.mk.injEq] at h
    obtain ⟨h1, h2⟩ := h
    simp [← h1, ← h2]
  | _ :: _, [], _, _, h => by simp [matchLower] at h
  | p :: ps, c :: cs, con, rest, h => by
    simp only [matchLower] at h
    split at h
    · next hc =>
      cases hm : matchLower ps cs with
      | none => rw [hm] at h; simp at h
      | some r =>
        rw [hm] at h
        simp only [Option.map_some', Option.some.injEq, Prod.mk.injEq] at h
        obtain ⟨h1, h2⟩ := h
        obtain ⟨hd, hmap⟩ := matchLower_decomp ps cs r.1 r.2 (by rw [hm])
        subst h2
        constructor
        · simp [← h1, hd]
        · simp [← h1, hmap, hc]
    · exact absurd h (by simp)

theorem matchLower_of_map : ∀ (xs ys : List Char),
    matchLower (xs.map Char.toLower) (xs ++ ys) = some (xs, ys)
  | [], ys => rfl
  | x :: xs, ys => by
    simp [matchLower, matchLower_of_map xs ys]

theorem matchLower_of_discrep : ∀ (pat pat' xs ys : List Char),
    discrep pat pat' = true → xs.map Char.toLower = pat' →
    matchLower pat (xs ++ ys) = none
  | p :: ps, q :: qs, xs, ys, hd, hmap => by
    cases xs with
    | nil => simp at hmap
    | cons x xs =>
      simp only [List.map_cons, List.cons.injEq] at hmap
      obtain ⟨hx, hxs⟩ := hmap
      by_cases hpq : p = q
      · simp only [discrep, if_pos hpq] at hd
        simp [matchLower, hx, hpq, matchLower_of_discrep ps qs xs ys hd hxs]
      · simp only [List.cons_append, matchLower]
        rw [if_neg (by rw [hx]; exact fun h => hpq h.symm)]
  | [], _, _, _, hd, _ => by simp [discrep] at hd
  | _ :: _, [], xs, _, hd, _ => by simp [discrep] at hd

theorem findSome?_mem {α β : Type} (f : α → Option β) :
    ∀ (l : List α) (b : β), l.findSome? f = some b → ∃ a ∈ l, f a = some b
  | [], b, h => by simp [List.findSome?] at h
  | a :: l, b, h => by
    rw [List.findSome?_cons] at h
    cases hfa : f a with
    | some v => rw [hfa] at h; exact ⟨a, List.mem_cons_self a l, hfa.trans h⟩
    | none =>
      rw [hfa] at h
      obtain ⟨x, hx, hfx⟩ := findSome?_mem f l b h
      exact ⟨x, List.mem_cons_of_mem a hx, hfx⟩

theorem length_dropWhile_le (p : Char → Bool) (l : List Char) :
    (l.dropWhile p).length ≤ l.length :=
  (List.dropWhile_sublist p).length_le

theorem matchKeyAt_decomp (cs kcs rest : List Char)
    (h : matchKeyAt cs = some (kcs, rest)) :
    cs = kcs ++ rest ∧ kcs ≠ [] := by
  unfold matchKeyAt at h
  obtain ⟨k, hkmem, hmk⟩ := findSome?_mem _ _ _ h
  obtain ⟨hd, hmap⟩ := matchLower_decomp k cs kcs rest hmk
  refine ⟨hd, ?_⟩
  intro hnil
  subst hnil
  simp only [List.map_nil] at hmap
  rw [← hmap] at hkmem
  simp [redactKeys] at hkmem

theorem tryMatch_shrink (cs out after : List Char)
    (h : tryMatch cs = some (out, after)) : after.length < cs.length := by
  unfold tryMatch at h
  cases hk : matchKeyAt cs with
  | none => rw [hk] at h; exact absurd h (by simp)
  | some kr =>
    rw [hk] at h
    obtain ⟨kcs, rest⟩ := kr
    obtain ⟨hdec, hkd⟩ := matchKeyAt_decomp cs kcs rest hk
    match rest with
    | [] => simp at h
    | [c] => simp at h
    | c :: d :: ds =>
      simp only at h
      split at h
      · simp only [Option.some.injEq, Prod.mk.injEq] at h
        have hle : after.length ≤ (d :: ds).length := by
          rw [← h.2]
          exact length_dropWhile_le _ _
        have hlt : (d :: ds).length < cs.length := by
          rw [hdec]
          simp only [List.length_append, List.length_cons]
          have : 1 ≤ kcs.length := List.length_pos.mpr hkd
          omega
        omega
      · exact absurd h (by simp)

theorem redactGo_eq : ∀ (f₁ f₂ : Nat) (cs : List Char),
    cs.length ≤ f₁ → cs.length ≤ f₂ → redactGo f₁ cs = redactGo f₂ cs
  | 0, f₂, cs, h1, _ => by
    have hnil : cs = [] := List.length_eq_zero.mp (Nat.le_zero.mp h1)
    subst hnil
    cases f₂ <;> rfl
  | _ + 1, f₂, [], _, _ => by cases f₂ <;> rfl
  | f + 1, f₂, c :: rest, h1, h2 => by
    cases f₂ with
    | zero => simp at h2
    | succ f₂' =>
      cases hm : tryMatch (c :: rest) with
      | some r =>
        obtain ⟨out, after⟩ := r
        have hsh := tryMatch_shrink (c :: rest) out after hm
        simp only [List.length_cons] at h1 h2 hsh
        simp only [redactGo, hm]
        rw [redactGo_eq f f₂' after (by omega) (by omega)]
      | none =>
        simp only [List.length_cons] at h1 h2
        simp only [redactGo, hm]
        rw [redactGo_eq f f₂' rest (by omega) (by omega)]

theorem redactList_matched (cs out after : List Char)
    (h : tryMatch cs = some (out, after)) :
    redactList cs = out ++ redactList after := by
  cases cs with
  | nil => rw [show tryMatch [] = none from rfl] at h; cases h
  | cons c rest =>
    have hsh := tryMatch_shrink _ _ _ h
    simp only [List.length_cons] at hsh
    unfold redactList
    simp only [List.length_cons, redactGo, h]
    rw [redactGo_eq rest.length after.length after (by omega) (le_refl _)]

theorem redactList_pass (c : Char) (rest : List Char)
    (h : tryMatch (c :: rest) = none) :
    redactList (c :: rest) = c :: redactList rest := by
  unfold redactList
  simp only [List.length_cons, redactGo, h]

theorem matchLower_head_ne (p : Char) (ps : List Char) (c : Char) (cs : List Char)
    (h : c.toLower ≠ p) : matchLower (p :: ps) (c :: cs) = none := by
  simp [matchLower, h]

theorem matchKeyAt_head_none (c : Char) (rest : List Char)
    (ha : c.toLower ≠ 'a') (ht : c.toLower ≠ 't') (hs : c.toLower ≠ 's') :
    matchKeyAt (c :: rest) = none := by
  have k1 : matchLower "api_key".data (c :: rest) = none := by
    rw [show "api_key".data = 'a' :: "pi_key".data from rfl]
    exact matchLower_head_ne _ _ _ _ ha
  have k2 : matchLower "api-key".data (c :: rest) = none := by
    rw [show "api-key".data = 'a' :: "pi-key".data from rfl]
    exact matchLower_head_ne _ _ _ _ ha
  have k3 : matchLower "apikey".data (c :: rest) = none := by
    rw [show "apikey".data = 'a' :: "pikey".data from rfl]
    exact matchLower_head_ne _ _ _ _ ha
  have k4 : matchLower "token".data (c :: rest) = none := by
    rw [show "token".data = 't' :: "oken".data from rfl]
    exact matchLower_head_ne _ _ _ _ ht
  have k5 : matchLower "secret".data (c :: rest) = none := by
    rw [show "secret".data = 's' :: "ecret".data from rfl]
    exact matchLower_head_ne _ _ _ _ hs
  simp [matchKeyAt, redactKeys, List.findSome?_cons, k1, k2, k3, k4, k5]

theorem tryMatch_head_none (c : Char) (rest : List Char)
    (ha : c.toLower ≠ 'a') (ht : c.toLower ≠ 't') (hs : c.toLower ≠ 's') :
    tryMatch (c :: rest) = none := by
  unfold tryMatch
  rw [matchKeyAt_head_none c rest ha ht hs]

theorem tryMatch_space (c : Char) (rest : List Char) (h : isSpaceRE c = true) :
    tryMatch (c :: rest) = none := by
  simp only [isSpaceRE, Bool.or_eq_true, decide_eq_true_eq] at h
  rcases h with ((((h1 | h1) | h1) | h1) | h1) <;> subst h1 <;>
    exact tryMatch_head_none _ _ (by decide) (by decide) (by decide)

theorem redactList_spaces_append : ∀ (p rest : List Char),
    (∀ c ∈ p, isSpaceRE c = true) →
    redactList (p ++ rest) = p ++ redactList rest
  | [], rest, _ => by simp
  | c :: p, rest, h => by
    have hc : isSpaceRE c = true := h c (List.mem_cons_self _ _)
    have hp : ∀ x ∈ p, isSpaceRE x = true :=
      fun x hx => h x (List.mem_cons_of_mem _ hx)
    rw [List.cons_append, redactList_pass c (p ++ rest) (tryMatch_space c _ hc),
      redactList_spaces_append p rest hp, List.cons_append]

theorem redactList_nil : redactList [] = [] := rfl

theorem redactList_spaces (s : List Char) (h : ∀ c ∈ s, isSpaceRE c = true) :
    redactList s = s := by
  have := redactList_spaces_append s [] h
  simpa [redactList_nil] using this

theorem dropWhile_nonspace_append : ∀ (v s : List Char),
    (∀ c ∈ v, isSpaceRE c = false) → (∀ c ∈ s, isSpaceRE c = true) →
    (v ++ s).dropWhile (fun e => !isSpaceRE e) = s
  | [], s, _, hs => by
    cases s with
    | nil => rfl
    | cons c s' =>
      have hc : isSpaceRE c = true := hs c (List.mem_cons_self _ _)
      simp [List.dropWhile_cons, hc]
  | d :: v, s, hv, hs => by
    have hd : isSpaceRE d = false := hv d (List.mem_cons_self _ _)
    simp only [List.cons_append, List.dropWhile_cons, hd, Bool.not_false, if_true]
    exact dropWhile_nonspace_append v s
      (fun c hc => hv c (List.mem_cons_of_mem _ hc)) hs

theorem matchKeyAt_at_key (k rest : List Char)
    (hk : k.map Char.toLower ∈ redactKeys) :
    matchKeyAt (k ++ rest) = some (k, rest) := by
  simp only [redactKeys, List.mem_cons, List.not_mem_nil, or_false] at hk
  rcases hk with h | h | h | h | h
  · have hm := matchLower_of_map k rest
    rw [h] at hm
    simp [matchKeyAt, redactKeys, List.findSome?_cons, hm]
  · have h1 : matchLower "api_key".data (k ++ rest) = none :=
      matchLower_of_discrep _ _ k rest (by decide) h
    have hm := matchLower_of_map k rest
    rw [h] at hm
    simp [matchKeyAt, redactKeys, List.findSome?_cons, h1, hm]
  · have h1 : matchLower "api_key".data (k ++ rest) = none :=
      matchLower_of_discrep _ _ k rest (by decide) h
    have h2 : matchLower "api-key".data (k ++ rest) = none :=
      matchLower_of_discrep _ _ k rest (by decide) h
    have hm := matchLower_of_map k rest
    rw [h] at hm
    simp [matchKeyAt, redactKeys, List.findSome?_cons, h1, h2, hm]
  · have h1 : matchLower "api_key".data (k ++ rest) = none :=
      matchLower_of_discrep _ _ k rest (by decide) h
    have h2 : matchLower "api-key".data (k ++ rest) = none :=
      matchLower_of_discrep _ _ k rest (by decide) h
    have h3 : matchLower "apikey".data (k ++ rest) = none :=
      matchLower_of_discrep _ _ k rest (by decide) h
    have hm := matchLower_of_map k rest
    rw [h] at hm
    simp [matchKeyAt, redactKeys, List.findSome?_cons, h1, h2, h3, hm]
  · have h1 : matchLower "api_key".data (k ++ rest) = none :=
      matchLower_of_discrep _ _ k rest (by decide) h
    have h2 : matchLower "api-key".data (k ++ rest) = none :=
      matchLower_of_discrep _ _ k rest (by decide) h
    have h3 : matchLower "apikey".data (k ++ rest) = none :=
      matchLower_of_discrep _ _ k rest (by decide) h
    have h4 : matchLower "token".data (k ++ rest) = none :=
      matchLower_of_discrep _ _ k rest (by decide) h
    have hm := matchLower_of_map k rest
    rw [h] at hm
    simp [matchKeyAt, redactKeys, List.findSome?_cons, h1, h2, h3, h4, hm]

theorem tryMatch_at_key (k v s : List Char)
    (hk : k.map Char.toLower ∈ redactKeys) (hv : v ≠ [])
    (hvs : ∀ c ∈ v, isSpaceRE c = false) (hs : ∀ c ∈ s, isSpaceRE c = true) :
    tryMatch (k ++ '=' :: (v ++ s)) = some (k ++ redactedTail, s) := by
  have hma := matchKeyAt_at_key k ('=' :: (v ++ s)) hk
  unfold tryMatch
  rw [hma]
  cases v with
  | nil => exact absurd rfl hv
  | cons d v' =>
    have hd : isSpaceRE d = false := hvs d (List.mem_cons_self _ _)
    simp only [List.cons_append]
    rw [if_pos (by simp [hd])]
    rw [show d :: (v' ++ s) = (d :: v') ++ s from rfl,
      dropWhile_nonspace_append (d :: v') s hvs hs]

theorem redactList_keyvalue (p k v s : List Char)
    (hp : ∀ c ∈ p, isSpaceRE c = true)
    (hk : k.map Char.toLower ∈ redactKeys) (hv : v ≠ [])
    (hvs : ∀ c ∈ v, isSpaceRE c = false) (hs : ∀ c ∈ s, isSpaceRE c = true) :
    redactList (p ++ k ++ '=' :: (v ++ s)) = p ++ k ++ redactedTail ++ s := by
  rw [List.append_assoc, redactList_spaces_append p _ hp]
  rw [redactList_matched _ _ _ (tryMatch_at_key k v s hk hv hvs hs),
    redactList_spaces s hs]
  simp [List.append_assoc]

theorem stringDataInj (a b : String) (h : a.data = b.data) : a = b :=
  congrArg String.mk h

/-- C2: for every input line carrying a case-insensitive occurrence of
one of the secret keys (`api_key`, `api-key`, `apikey`, `token`,
`secret`) followed by `=` and a non-whitespace value, `redact` replaces
the value with the fixed placeholder and preserves the key name; on the
spec's example inputs the literal secret value does not survive into
the output.  Echoed commands and persisted step output both pass
through `redact` (`runModel` echoes `redact cmdText`; the log writer
redacts per line, see `runWriter`). -/
theorem redact_masks_secret_pairs (p k v s : String)
    (hp : ∀ c ∈ p.data, isSpaceRE c = true)
    (hk : k.data.map Char.toLower ∈ redactKeys)
    (hv : v.data ≠ [])
    (hvs : ∀ c ∈ v.data, isSpaceRE c = false)
    (hs : ∀ c ∈ s.data, isSpaceRE c = true) :
    redact (p ++ k ++ "=" ++ v ++ s) = p ++ k ++ "=<redacted>" ++ s
    ∧ redact "token=ABC123" = "token=<redacted>"
    ∧ hasSeg "ABC123".data (redact "token=ABC123").data = false
    ∧ redact "secret=xyz" = "secret=<redacted>"
    ∧ hasSeg "xyz".data (redact "secret=xyz").data = false
    ∧ redact "api_key=sk-test" = "api_key=<redacted>"
    ∧ hasSeg "sk-test".data (redact "api_key=sk-test").data = false := by
  refine ⟨?_, by decide, by decide, by decide, by decide, by decide, by decide⟩
  apply stringDataInj
  have hdata : (p ++ k ++ "=" ++ v ++ s).data =
      p.data ++ k.data ++ '=' :: (v.data ++ s.data) := by
    simp [String.data_append]
  have hdata2 : (p ++ k ++ "=<redacted>" ++ s).data =
      p.data ++ k.data ++ redactedTail ++ s.data := by
    simp [String.data_append, redactedTail]
  show (redactList (p ++ k ++ "=" ++ v ++ s).data) = _
  rw [hdata, hdata2,
    redactList_keyvalue p.data k.data v.data s.data hp hk hv hvs hs]

theorem redact_masks_secret_pairs_witness :
    (∀ c ∈ (" " : String).data, isSpaceRE c = true)
    ∧ ("Token" : String).data.map Char.toLower ∈ redactKeys
    ∧ ("ABC123" : String).data ≠ []
    ∧ (∀ c ∈ ("ABC123" : String).data, isSpaceRE c = false)
    ∧ (∀ c ∈ ("" : String).data, isSpaceRE c = true)
    ∧ redact (" " ++ "Token" ++ "=" ++ "ABC123" ++ "") =
        " " ++ "Token" ++ "=<redacted>" ++ "" :=
  ⟨by decide, by decide, by decide, by decide, by decide,
    (redact_masks_secret_pairs " " "Token" "ABC123" ""
      (by decide) (by decide) (by decide) (by decide) (by decide)).1⟩

/-! ## Supporting lemmas: the redacting writer -/

theorem dropWhile_eq_self_of_not (p : Char → Bool) :
    ∀ (l : List Char), (∀ c ∈ l, p c = false) → l.dropWhile p = l
  | [], _ => rfl
  | c :: l, h => by
    have := h c (List.mem_cons_self _ _)
    simp [List.dropWhile_cons, this]

theorem finalFlush_eq (buf : List Char) (h : ∀ c ∈ buf, c ≠ '\n') :
    finalFlush buf = redactStreamAux buf [] := by
  unfold finalFlush redactStreamAux
  by_cases hb : buf = []
  · simp [hb]
  · rw [if_neg hb, if_neg hb]
    have htrim : trimRightNL buf = buf := by
      unfold trimRightNL
      rw [dropWhile_eq_self_of_not _ buf.reverse (fun c hc => by
        simp [h c (List.mem_reverse.mp hc)])]
      exact List.reverse_reverse buf
    rw [htrim]

theorem flushAux_l1 : ∀ (s cur t : List Char),
    (flushAux cur s).1 ++ redactStreamAux (flushAux cur s).2 t =
      redactStreamAux cur (s ++ t)
  | [], cur, t => by simp [flushAux]
  | c :: rest, cur, t => by
    by_cases hc : c = '\n'
    · subst hc
      simp only [flushAux, List.cons_append, redactStreamAux, if_true,
        eq_self_iff_true, List.append_eq]
      rw [List.append_assoc, List.cons_append, flushAux_l1 rest [] t]
    · simp only [flushAux, if_neg hc, List.cons_append, redactStreamAux,
        List.append_eq]
      exact flushAux_l1 rest (cur ++ [c]) t

theorem flushAux_shift : ∀ (mid acc rest : List Char),
    (∀ c ∈ mid, c ≠ '\n') → flushAux acc (mid ++ rest) = flushAux (acc ++ mid) rest
  | [], acc, rest, _ => by simp
  | c :: mid, acc, rest, h => by
    have hc : c ≠ '\n' := h c (List.mem_cons_self _ _)
    simp only [List.cons_append, flushAux, if_neg hc, List.append_eq]
    rw [flushAux_shift mid (acc ++ [c]) rest
      (fun x hx => h x (List.mem_cons_of_mem _ hx))]
    simp [List.append_assoc]

theorem flushAux_tail_no_newline : ∀ (s cur : List Char),
    (∀ c ∈ cur, c ≠ '\n') → ∀ c ∈ (flushAux cur s).2, c ≠ '\n'
  | [], cur, h => by simpa [flushAux] using h
  | c :: rest, cur, h => by
    by_cases hc : c = '\n'
    · subst hc
      simp only [flushAux, if_pos rfl]
      exact flushAux_tail_no_newline rest [] (by simp)
    · simp only [flushAux, if_neg hc]
      refine flushAux_tail_no_newline rest (cur ++ [c]) ?_
      intro x hx
      rcases List.mem_append.mp hx with h1 | h1
      · exact h x h1
      · simp only [List.mem_singleton] at h1
        subst h1
        exact hc

theorem writerRun_eq : ∀ (chunks : List (List Char)) (buf : List Char),
    (∀ c ∈ buf, c ≠ '\n') →
    writerRun buf chunks = redactStreamAux buf chunks.flatten
  | [], buf, h => by
    simp only [writerRun, List.flatten]
    exact finalFlush_eq buf h
  | p :: ps, buf, h => by
    simp only [writerRun, List.flatten_cons]
    have hsh : flushAux [] (buf ++ p) = flushAux buf p := by
      have := flushAux_shift buf [] p h
      simpa using this
    rw [hsh, writerRun_eq ps (flushAux buf p).2 (flushAux_tail_no_newline p buf h)]
    exact flushAux_l1 p buf ps.flatten

/-- C8: the line-buffered redacting writer is chunk-independent: for
every byte stream and every way of splitting it into `Write` calls, the
persisted output equals the per-line redaction of the concatenated
stream — completed lines are redacted then forwarded, and unterminated
trailing bytes at stream close are flushed (redacted) as one final
line, so no secret spanning two write chunks within a single line
escapes redaction. -/
theorem runWriter_chunk_independent (chunks : List (List Char)) :
    runWriter chunks = redactStream chunks.flatten := by
  unfold runWriter redactStream
  exact writerRun_eq chunks [] (by simp)

/-! ## Supporting lemmas: the step runner -/

theorem runSteps_skip (ex : String → Option Int) :
    ∀ (es rest : List String), (∀ s ∈ es, trimString s = "") →
    runSteps ex (es ++ rest) = runSteps ex rest
  | [], _, _ => rfl
  | s :: es, rest, h => by
    have hs : trimString s = "" := h s (List.mem_cons_self _ _)
    simp only [List.cons_append, runSteps, hs, if_pos]
    exact runSteps_skip ex es rest (fun x hx => h x (List.mem_cons_of_mem _ hx))

theorem runSteps_cons_zero (ex : String → Option Int) (s : String) (L : List String)
    (h : trimString s ≠ "") (hx : ex (trimString s) = some 0) :
    runSteps ex (s :: L) =
      ⟨⟨trimString s, 0⟩ :: (runSteps ex L).recs, (runSteps ex L).status,
       .echoCmd (trimString s) :: .execCmd (trimString s) :: (runSteps ex L).effs,
       (runSteps ex L).aborted⟩ := by
  simp only [runSteps, if_neg h, hx, if_true, eq_self_iff_true]

theorem runSteps_cons_nonzero (ex : String → Option Int) (s : String) (L : List String)
    (code : Int) (h : trimString s ≠ "") (hc : code ≠ 0)
    (hx : ex (trimString s) = some code) :
    runSteps ex (s :: L) =
      ⟨[⟨trimString s, code⟩], "failed",
       [.echoCmd (trimString s), .execCmd (trimString s)], false⟩ := by
  simp only [runSteps, if_neg h, hx, if_neg hc]

/-- C1: a workflow whose (trim-nonempty) steps are A exiting 0, then B
exiting 2, then C (and arbitrary further steps), with trim-empty steps
interleaved, produces exactly the records for A and B in order, final
status `"failed"`, and an effect trace showing that only A and B were
echoed/executed — C is never invoked, and trim-empty steps leave no
record and no effect. -/
theorem run_failfast (e1 e2 : List String) (a b c : String) (rest : List String)
    (ex : String → Option Int) (outs : List String) (exf : String → Bool)
    (he1 : ∀ s ∈ e1, trimString s = "") (he2 : ∀ s ∈ e2, trimString s = "")
    (ha : trimString a ≠ "") (hb : trimString b ≠ "")
    (hxa : ex (trimString a) = some 0) (hxb : ex (trimString b) = some 2) :
    runModel true (e1 ++ a :: (e2 ++ b :: c :: rest)) ex outs exf =
      (Except.ok ([⟨trimString a, 0⟩, ⟨trimString b, 2⟩], "failed"),
       [RunEff.mkRunDir, RunEff.createLog,
        RunEff.echoCmd (trimString a), RunEff.execCmd (trimString a),
        RunEff.echoCmd (trimString b), RunEff.execCmd (trimString b),
        RunEff.writeSummaryFile] ++ copyEffects outs exf) := by
  have hloop : runSteps ex (e1 ++ a :: (e2 ++ b :: c :: rest)) =
      ⟨[⟨trimString a, 0⟩, ⟨trimString b, 2⟩], "failed",
       [.echoCmd (trimString a), .execCmd (trimString a),
        .echoCmd (trimString b), .execCmd (trimString b)], false⟩ := by
    rw [runSteps_skip ex e1 _ he1,
      runSteps_cons_zero ex a _ ha hxa,
      runSteps_skip ex e2 _ he2,
      runSteps_cons_nonzero ex b _ 2 hb (by decide) hxb]
  simp only [runModel, hloop, if_true]
  rfl

theorem run_failfast_witness :
    (∀ s ∈ ([] : List String), trimString s = "")
    ∧ (∀ s ∈ [" "], trimString s = "")
    ∧ trimString "a" ≠ ""
    ∧ trimString "b" ≠ ""
    ∧ (fun s => if s = "b" then some (2 : Int) else some 0) (trimString "a") = some 0
    ∧ (fun s => if s = "b" then some (2 : Int) else some 0) (trimString "b") = some 2
    ∧ runModel true ([] ++ "a" :: ([" "] ++ "b" :: "c" :: []))
        (fun s => if s = "b" then some (2 : Int) else some 0) [] (fun _ => false) =
      (Except.ok ([⟨trimString "a", 0⟩, ⟨trimString "b", 2⟩], "failed"),
       [RunEff.mkRunDir, RunEff.createLog,
        RunEff.echoCmd (trimString "a"), RunEff.execCmd (trimString "a"),
        RunEff.echoCmd (trimString "b"), RunEff.execCmd (trimString "b"),
        RunEff.writeSummaryFile] ++ copyEffects [] (fun _ => false)) :=
  ⟨by decide, by decide, by decide, by decide, by decide, by decide,
    run_failfast [] [" "] "a" "b" "c" []
      (fun s => if s = "b" then some (2 : Int) else some 0) [] (fun _ => false)
      (by decide) (by decide) (by decide) (by decide) (by decide) (by decide)⟩

/-- C9: when the workflow's expanded repository path does not exist,
the run fails before any artifact is produced: the result is an error
and the effect trace is empty — no `devagent_runs` directory, no log
file, no summary. -/
theorem run_missing_repo (steps : List String) (ex : String → Option Int)
    (outs : List String) (exf : String → Bool) :
    runModel false steps ex outs exf =
      (Except.error "repo path not accessible", []) := rfl

/-! ## Supporting lemmas: scheduler -/

/-- C4 counterexample: take a daemon whose `time.Local` is UTC and the
job with cron `"0 9 * * 1-5"`, timezone `"America/New_York"`.  The
registered entry fires at Monday 2024-01-01 09:00 UTC — an instant
whose New York wall clock reads 04:00, not 09:00 — so the claim that
the entry fires only at 09:00 New York time on New York weekdays is
false: the job's resolved timezone does not determine firing times. -/
theorem scheduleJob_fires_in_utc_not_ny :
    ¬ (∀ t : Int, firesAny nyDaemonState t = true →
        (fieldsAt nyWinterLoc t).hour = 9 ∧ (fieldsAt nyWinterLoc t).minute = 0 ∧
        1 ≤ (fieldsAt nyWinterLoc t).dow ∧ (fieldsAt nyWinterLoc t).dow ≤ 5) := by
  intro h
  have hfire := h mondayNineUTC (by decide)
  have hh : (fieldsAt nyWinterLoc mondayNineUTC).hour = 4 := by decide
  rcases hfire with ⟨h9, -, -, -⟩
  rw [hh] at h9
  exact absurd h9 (by decide)

/-- C4 (amended): the firing times of the entry registered for cron
`"0 9 * * 1-5"` are determined by the cron engine's own location (the
daemon host's `time.Local`), not by the job's timezone field: for every
host location, timezone string, tz database and instant, the entry
fires exactly when the host-local wall clock reads minute 0, hour 9 on
a weekday (Mon–Fri).  The resolved job timezone is captured only for
the run-result timestamp and plays no role in firing. -/
theorem scheduleJob_fires_host_local (lookup : String → Option Loc) (hostLoc : Loc)
    (tz yp : String) (t : Int) :
    firesAny ((scheduleJob lookup hostLoc emptySchedState
        ⟨"j", "0 9 * * 1-5", tz, yp⟩).getD emptySchedState) t = true ↔
      ((fieldsAt hostLoc t).minute = 0 ∧ (fieldsAt hostLoc t).hour = 9 ∧
       1 ≤ (fieldsAt hostLoc t).dow ∧ (fieldsAt hostLoc t).dow ≤ 5) := by
  have hp : parseCron "0 9 * * 1-5" =
      some ⟨.single 0, .single 9, .all, .all, .range 1 5⟩ := rfl
  simp only [scheduleJob, hp, emptySchedState, Option.getD_some, firesAny,
    List.nil_append, List.any_cons, List.any_nil, Bool.or_false]
  simp only [matchesSchedule, CronField.matchesVal, CronField.isAll,
    Bool.true_or, if_true, Bool.true_and, Bool.and_eq_true,
    beq_iff_eq, decide_eq_true_eq]
  tauto

theorem anyKeys (s : SchedState) (name : String) :
    s.jobs.any (fun pr => pr.1 == name) = true ↔ name ∈ keysOf s := by
  simp [keysOf, List.any_eq_true, List.mem_map, beq_iff_eq]

theorem scheduleJob_keys (lookup : String → Option Loc) (hostLoc : Loc)
    (s : SchedState) (job : JobM) (s' : SchedState)
    (h : scheduleJob lookup hostLoc s job = some s') :
    keysOf s' = keysOf s ++ [job.name] := by
  unfold scheduleJob at h
  cases hp : parseCron job.cron with
  | none => rw [hp] at h; cases h
  | some flds =>
    rw [hp] at h
    simp only [Option.some.injEq] at h
    subst h
    simp [keysOf]

theorem scheduleJob_none_parse (lookup : String → Option Loc) (hostLoc : Loc)
    (s : SchedState) (job : JobM)
    (h : parseCron job.cron = none) :
    scheduleJob lookup hostLoc s job = none := by
  unfold scheduleJob
  rw [h]

theorem reloadAdd_keys_mono (lookup : String → Option Loc) (hostLoc : Loc) :
    ∀ (repo : List JobM) (s : SchedState) (ex : List String) (n : String),
    n ∈ keysOf s → n ∈ keysOf (reloadAdd lookup hostLoc s ex repo).1
  | [], _, _, _, h => h
  | job :: rest, s, ex, n, h => by
    simp only [reloadAdd]
    split
    · exact reloadAdd_keys_mono lookup hostLoc rest s _ n h
    · cases hsj : scheduleJob lookup hostLoc s job with
      | none => exact reloadAdd_keys_mono lookup hostLoc rest s _ n h
      | some s' =>
        refine reloadAdd_keys_mono lookup hostLoc rest s' _ n ?_
        rw [scheduleJob_keys lookup hostLoc s job s' hsj]
        exact List.mem_append_left _ h

theorem reloadAdd_keys_sub (lookup : String → Option Loc) (hostLoc : Loc) :
    ∀ (repo : List JobM) (s : SchedState) (ex : List String) (n : String),
    n ∈ keysOf (reloadAdd lookup hostLoc s ex repo).1 →
    n ∈ keysOf s ∨ ∃ j ∈ repo, j.name = n
  | [], _, _, _, h => Or.inl h
  | job :: rest, s, ex, n, h => by
    simp only [reloadAdd] at h
    split at h
    · rcases reloadAdd_keys_sub lookup hostLoc rest s _ n h with h1 | ⟨j, hj, hjn⟩
      · exact Or.inl h1
      · exact Or.inr ⟨j, List.mem_cons_of_mem _ hj, hjn⟩
    · cases hsj : scheduleJob lookup hostLoc s job with
      | none =>
        rw [hsj] at h
        rcases reloadAdd_keys_sub lookup hostLoc rest s _ n h with h1 | ⟨j, hj, hjn⟩
        · exact Or.inl h1
        · exact Or.inr ⟨j, List.mem_cons_of_mem _ hj, hjn⟩
      | some s' =>
        rw [hsj] at h
        rcases reloadAdd_keys_sub lookup hostLoc rest s' _ n h with h1 | ⟨j, hj, hjn⟩
        · rw [scheduleJob_keys lookup hostLoc s job s' hsj] at h1
          rcases List.mem_append.mp h1 with h2 | h2
          · exact Or.inl h2
          · simp only [List.mem_singleton] at h2
            exact Or.inr ⟨job, List.mem_cons_self _ _, h2.symm⟩
        · exact Or.inr ⟨j, List.mem_cons_of_mem _ hj, hjn⟩

theorem reloadAdd_registers (lookup : String → Option Loc) (hostLoc : Loc) :
    ∀ (repo : List JobM) (s : SchedState) (ex : List String) (j : JobM),
    j ∈ repo → (parseCron j.cron).isSome →
    j.name ∈ keysOf (reloadAdd lookup hostLoc s ex repo).1
  | [], _, _, _, hj, _ => absurd hj (List.not_mem_nil _)
  | job :: rest, s, ex, j, hj, hp => by
    rcases List.mem_cons.mp hj with rfl | hj'
    · simp only [reloadAdd]
      split
      · next hany =>
        exact reloadAdd_keys_mono lookup hostLoc rest s _ _ ((anyKeys s j.name).mp hany)
      · cases hsj : scheduleJob lookup hostLoc s j with
        | none =>
          unfold scheduleJob at hsj
          cases hpc : parseCron j.cron with
          | none => rw [hpc] at hp; cases hp
          | some flds => rw [hpc] at hsj; cases hsj
        | some s' =>
          refine reloadAdd_keys_mono lookup hostLoc rest s' _ _ ?_
          rw [scheduleJob_keys lookup hostLoc s j s' hsj]
          exact List.mem_append_right _ (List.mem_singleton_self _)
    · simp only [reloadAdd]
      split
      · exact reloadAdd_registers lookup hostLoc rest s _ j hj' hp
      · cases hsj : scheduleJob lookup hostLoc s job with
        | none => exact reloadAdd_registers lookup hostLoc rest s _ j hj' hp
        | some s' => exact reloadAdd_registers lookup hostLoc rest s' _ j hj' hp

theorem reloadAdd_ex_sub (lookup : String → Option Loc) (hostLoc : Loc) :
    ∀ (repo : List JobM) (s : SchedState) (ex : List String) (n : String),
    n ∈ (reloadAdd lookup hostLoc s ex repo).2 →
    n ∈ ex ∧ ∀ j ∈ repo, j.name ≠ n
  | [], _, _, _, h => ⟨h, by simp⟩
  | job :: rest, s, ex, n, h => by
    have step : ∀ (s₀ : SchedState),
        n ∈ (reloadAdd lookup hostLoc s₀ (ex.filter (fun m => m != job.name)) rest).2 →
        n ∈ ex ∧ ∀ j ∈ job :: rest, j.name ≠ n := by
      intro s₀ hmem
      obtain ⟨hex, hrest⟩ := reloadAdd_ex_sub lookup hostLoc rest s₀ _ n hmem
      rw [List.mem_filter] at hex
      obtain ⟨hexx, hbne⟩ := hex
      refine ⟨hexx, ?_⟩
      intro j hj
      rcases List.mem_cons.mp hj with rfl | hj'
      · intro e
        rw [bne_iff_ne] at hbne
        exact hbne e.symm
      · exact hrest j hj'
    simp only [reloadAdd] at h
    split at h
    · exact step s h
    · cases hsj : scheduleJob lookup hostLoc s job with
      | none => rw [hsj] at h; exact step s h
      | some s' => rw [hsj] at h; exact step s' h

theorem reloadAdd_ex_mem (lookup : String → Option Loc) (hostLoc : Loc) :
    ∀ (repo : List JobM) (s : SchedState) (ex : List String) (n : String),
    n ∈ ex → (∀ j ∈ repo, j.name ≠ n) →
    n ∈ (reloadAdd lookup hostLoc s ex repo).2
  | [], _, _, _, hn, _ => hn
  | job :: rest, s, ex, n, hn, h => by
    have hne : n ≠ job.name := fun e => h job (List.mem_cons_self _ _) e.symm
    have hn' : n ∈ ex.filter (fun m => m != job.name) :=
      List.mem_filter.mpr ⟨hn, bne_iff_ne.mpr hne⟩
    have h' : ∀ j ∈ rest, j.name ≠ n := fun j hj => h j (List.mem_cons_of_mem _ hj)
    simp only [reloadAdd]
    split
    · exact reloadAdd_ex_mem lookup hostLoc rest s _ n hn' h'
    · cases hsj : scheduleJob lookup hostLoc s job with
      | none => exact reloadAdd_ex_mem lookup hostLoc rest s _ n hn' h'
      | some s' => exact reloadAdd_ex_mem lookup hostLoc rest s' _ n hn' h'

theorem reloadAdd_ex_nil (lookup : String → Option Loc) (hostLoc : Loc) :
    ∀ (repo : List JobM) (s : SchedState) (ex : List String),
    (∀ n ∈ ex, ∃ j ∈ repo, j.name = n) →
    (reloadAdd lookup hostLoc s ex repo).2 = []
  | [], s, ex, h => by
    cases ex with
    | nil => rfl
    | cons n l =>
      obtain ⟨j, hj, -⟩ := h n (List.mem_cons_self _ _)
      exact absurd hj (List.not_mem_nil _)
  | job :: rest, s, ex, h => by
    have hex' : ∀ n ∈ ex.filter (fun m => m != job.name), ∃ j ∈ rest, j.name = n := by
      intro n hn
      rw [List.mem_filter] at hn
      obtain ⟨hne, hbne⟩ := hn
      obtain ⟨j, hj, hjn⟩ := h n hne
      rcases List.mem_cons.mp hj with rfl | hj'
      · rw [bne_iff_ne] at hbne
        exact absurd hjn.symm hbne
      · exact ⟨j, hj', hjn⟩
    simp only [reloadAdd]
    split
    · exact reloadAdd_ex_nil lookup hostLoc rest s _ hex'
    · cases hsj : scheduleJob lookup hostLoc s job with
      | none => exact reloadAdd_ex_nil lookup hostLoc rest s _ hex'
      | some s' => exact reloadAdd_ex_nil lookup hostLoc rest s' _ hex'

theorem reloadAdd_noop (lookup : String → Option Loc) (hostLoc : Loc) :
    ∀ (repo : List JobM) (s : SchedState) (ex : List String),
    (∀ j ∈ repo, j.name ∈ keysOf s ∨ parseCron j.cron = none) →
    (reloadAdd lookup hostLoc s ex repo).1 = s
  | [], _, _, _ => rfl
  | job :: rest, s, ex, h => by
    have h' : ∀ j ∈ rest, j.name ∈ keysOf s ∨ parseCron j.cron = none :=
      fun j hj => h j (List.mem_cons_of_mem _ hj)
    simp only [reloadAdd]
    rcases h job (List.mem_cons_self _ _) with hk | hp
    · rw [if_pos ((anyKeys s job.name).mpr hk)]
      exact reloadAdd_noop lookup hostLoc rest s _ h'
    · by_cases hany : s.jobs.any (fun pr => pr.1 == job.name) = true
      · rw [if_pos hany]
        exact reloadAdd_noop lookup hostLoc rest s _ h'
      · rw [if_neg hany]
        simp only [scheduleJob_none_parse lookup hostLoc s job hp]
        exact reloadAdd_noop lookup hostLoc rest s _ h'

theorem reloadRemove_keys_sub :
    ∀ (ex : List String) (s : SchedState) (n : String),
    n ∈ keysOf (reloadRemove s ex) → n ∈ keysOf s
  | [], _, _, h => h
  | name :: rest, s, n, h => by
    simp only [reloadRemove] at h
    cases hf : s.jobs.find? (fun pr => pr.1 == name) with
    | some pr =>
      rw [hf] at h
      have h1 := reloadRemove_keys_sub rest _ n h
      simp only [keysOf, List.mem_map] at h1 ⊢
      obtain ⟨q, hq, hqn⟩ := h1
      exact ⟨q, (List.mem_filter.mp hq).1, hqn⟩
    | none =>
      rw [hf] at h
      exact reloadRemove_keys_sub rest s n h

theorem reloadRemove_kills :
    ∀ (ex : List String) (s : SchedState) (n : String),
    n ∈ ex → n ∉ keysOf (reloadRemove s ex)
  | name :: rest, s, n, hn => by
    rcases List.mem_cons.mp hn with rfl | h'
    · simp only [reloadRemove]
      cases hf : s.jobs.find? (fun pr => pr.1 == n) with
      | some pr =>
        intro hmem
        have h1 := reloadRemove_keys_sub rest _ n hmem
        simp only [keysOf, List.mem_map] at h1
        obtain ⟨q, hq, hqn⟩ := h1
        have := (List.mem_filter.mp hq).2
        rw [hqn] at this
        simp at this
      | none =>
        intro hmem
        have h1 := reloadRemove_keys_sub rest s n hmem
        simp only [keysOf, List.mem_map] at h1
        obtain ⟨q, hq, hqn⟩ := h1
        have := List.find?_eq_none.mp hf q hq
        rw [hqn] at this
        simp at this
    · intro hmem
      simp only [reloadRemove] at hmem
      cases hf : s.jobs.find? (fun pr => pr.1 == name) with
      | some pr =>
        rw [hf] at hmem
        exact reloadRemove_kills rest _ n h' hmem
      | none =>
        rw [hf] at hmem
        exact reloadRemove_kills rest s n h' hmem

theorem reloadRemove_keeps :
    ∀ (ex : List String) (s : SchedState) (n : String),
    n ∈ keysOf s → n ∉ ex → n ∈ keysOf (reloadRemove s ex)
  | [], _, _, h, _ => h
  | name :: rest, s, n, h, hne => by
    have hnn : n ≠ name := fun e => hne (e ▸ List.mem_cons_self _ _)
    have hne' : n ∉ rest := fun e => hne (List.mem_cons_of_mem _ e)
    simp only [reloadRemove]
    cases hf : s.jobs.find? (fun pr => pr.1 == name) with
    | some pr =>
      refine reloadRemove_keeps rest _ n ?_ hne'
      simp only [keysOf, List.mem_map] at h ⊢
      obtain ⟨q, hq, hqn⟩ := h
      refine ⟨q, List.mem_filter.mpr ⟨hq, ?_⟩, hqn⟩
      rw [hqn]
      exact bne_iff_ne.mpr hnn
    | none => exact reloadRemove_keeps rest s n h hne'

/-- Shared consequence of one reconciliation pass: every registered
name came from the repository listing used for that pass. -/
theorem reload_keys_sub (lookup : String → Option Loc) (hostLoc : Loc)
    (s : SchedState) (repo : List JobM) (n : String)
    (h : n ∈ keysOf (reload lookup hostLoc s repo)) :
    ∃ j ∈ repo, j.name = n := by
  unfold reload at h
  by_contra hno
  push_neg at hno
  have h1 := reloadRemove_keys_sub _ _ _ h
  rcases reloadAdd_keys_sub lookup hostLoc repo s (keysOf s) n h1 with h2 | ⟨j, hj, hjn⟩
  · have hex : n ∈ (reloadAdd lookup hostLoc s (keysOf s) repo).2 :=
      reloadAdd_ex_mem lookup hostLoc repo s (keysOf s) n h2 hno
    exact reloadRemove_kills _ _ n hex h
  · exact hno j hj hjn

/-- C6: after a completed reconciliation pass, the set of registered
job names (the keys of the scheduler's name-to-handle map) is a subset
of the job names in the repository listing used for that pass. -/
theorem reload_registered_subset (lookup : String → Option Loc) (hostLoc : Loc)
    (s : SchedState) (repo : List JobM) (n : String)
    (h : n ∈ keysOf (reload lookup hostLoc s repo)) :
    ∃ j ∈ repo, j.name = n :=
  reload_keys_sub lookup hostLoc s repo n h

theorem reload_registered_subset_witness :
    ("a" ∈ keysOf (reload (fun _ => none) utcLoc ⟨[("old", 0)], [], 1⟩
        [⟨"a", "0 9 * * 1-5", "UTC", "p"⟩]))
    ∧ ∃ j ∈ [(⟨"a", "0 9 * * 1-5", "UTC", "p"⟩ : JobM)], JobM.name j = "a" :=
  ⟨by decide,
    reload_registered_subset (fun _ => none) utcLoc ⟨[("old", 0)], [], 1⟩
      [⟨"a", "0 9 * * 1-5", "UTC", "p"⟩] "a" (by decide)⟩

/-- A state is a fixed point of reconciliation when every listed job is
already registered (or unparseable) and every registered name is
listed. -/
theorem reload_fixed (lookup : String → Option Loc) (hostLoc : Loc)
    (s : SchedState) (repo : List JobM)
    (h1 : ∀ j ∈ repo, j.name ∈ keysOf s ∨ parseCron j.cron = none)
    (h2 : ∀ n ∈ keysOf s, ∃ j ∈ repo, j.name = n) :
    reload lookup hostLoc s repo = s := by
  unfold reload
  rw [reloadAdd_noop lookup hostLoc repo s (keysOf s) h1,
    reloadAdd_ex_nil lookup hostLoc repo s (keysOf s) h2]
  rfl

/-- A listed job with a parseable cron spec is registered after the
pass. -/
theorem reload_keeps_parsed (lookup : String → Option Loc) (hostLoc : Loc)
    (st : SchedState) (repo : List JobM) (j : JobM)
    (hj : j ∈ repo) (hp : (parseCron j.cron).isSome) :
    j.name ∈ keysOf (reload lookup hostLoc st repo) := by
  unfold reload
  refine reloadRemove_keeps _ _ _
    (reloadAdd_registers lookup hostLoc repo st (keysOf st) j hj hp) ?_
  intro hmem
  exact (reloadAdd_ex_sub lookup hostLoc repo st (keysOf st) j.name hmem).2 j hj rfl

/-- C5: reconciliation is idempotent on an unchanged job set — a second
pass over the same listing leaves the table exactly equal (no duplicate
registrations, no remove/re-add churn) — and, more strongly, a second
pass whose listing carries the same job names with changed cron or
timezone fields (the first-pass specs all parsing) also leaves the
state exactly equal: a job already registered is never re-parsed or
re-registered. -/
theorem reload_idempotent (lookup : String → Option Loc) (hostLoc : Loc)
    (st : SchedState) (repo repo₂ : List JobM)
    (hnames : repo₂.map JobM.name = repo.map JobM.name)
    (hparse : ∀ j ∈ repo, (parseCron j.cron).isSome) :
    (reload lookup hostLoc (reload lookup hostLoc st repo) repo =
      reload lookup hostLoc st repo)
    ∧ reload lookup hostLoc (reload lookup hostLoc st repo) repo₂ =
      reload lookup hostLoc st repo := by
  have hsub : ∀ n ∈ keysOf (reload lookup hostLoc st repo), ∃ j ∈ repo₂, j.name = n := by
    intro n hn
    obtain ⟨j, hj, hjn⟩ := reload_keys_sub lookup hostLoc st repo n hn
    have hmm : n ∈ repo₂.map JobM.name := by
      rw [hnames]
      exact List.mem_map.mpr ⟨j, hj, hjn⟩
    obtain ⟨j₂, hj₂, e⟩ := List.mem_map.mp hmm
    exact ⟨j₂, hj₂, e⟩
  have hin : ∀ j ∈ repo₂, j.name ∈ keysOf (reload lookup hostLoc st repo) := by
    intro j hj
    have hmm : j.name ∈ repo.map JobM.name := by
      rw [← hnames]
      exact List.mem_map.mpr ⟨j, hj, rfl⟩
    obtain ⟨j', hj', e⟩ := List.mem_map.mp hmm
    rw [← e]
    exact reload_keeps_parsed lookup hostLoc st repo j' hj' (hparse j' hj')
  constructor
  · refine reload_fixed lookup hostLoc _ repo ?_ ?_
    · intro j hj
      cases hpc : parseCron j.cron with
      | none => exact Or.inr rfl
      | some flds =>
        refine Or.inl (reload_keeps_parsed lookup hostLoc st repo j hj ?_)
        rw [hpc]
        rfl
    · exact fun n hn => reload_keys_sub lookup hostLoc st repo n hn
  · exact reload_fixed lookup hostLoc _ repo₂ (fun j hj => Or.inl (hin j hj)) hsub

theorem reload_idempotent_witness :
    ([(⟨"a", "0 8 * * *", "Asia/Tokyo", "p"⟩ : JobM)].map JobM.name =
      [(⟨"a", "0 9 * * 1-5", "UTC", "p"⟩ : JobM)].map JobM.name)
    ∧ (∀ j ∈ [(⟨"a", "0 9 * * 1-5", "UTC", "p"⟩ : JobM)], (parseCron j.cron).isSome)
    ∧ ((reload (fun _ => none) utcLoc
        (reload (fun _ => none) utcLoc emptySchedState
          [⟨"a", "0 9 * * 1-5", "UTC", "p"⟩])
        [⟨"a", "0 9 * * 1-5", "UTC", "p"⟩] =
      reload (fun _ => none) utcLoc emptySchedState
        [⟨"a", "0 9 * * 1-5", "UTC", "p"⟩])
    ∧ reload (fun _ => none) utcLoc
        (reload (fun _ => none) utcLoc emptySchedState
          [⟨"a", "0 9 * * 1-5", "UTC", "p"⟩])
        [⟨"a", "0 8 * * *", "Asia/Tokyo", "p"⟩] =
      reload (fun _ => none) utcLoc emptySchedState
        [⟨"a", "0 9 * * 1-5", "UTC", "p"⟩]) :=
  ⟨by decide, by decide,
    reload_idempotent (fun _ => none) utcLoc emptySchedState
      [⟨"a", "0 9 * * 1-5", "UTC", "p"⟩]
      [⟨"a", "0 8 * * *", "Asia/Tokyo", "p"⟩] (by decide) (by decide)⟩

/-! ## Claims about the execution paths and the lock -/

/-- C3 counterexample: the manual `run` command (`doRun`) is an
execution path that runs the workflow while performing no lock
acquisition at all — its action trace contains a `runWorkflow` action
and no `tryAcquire` action — so the claim that every execution path
acquires the per-job lock before executing is false on the code. -/
theorem doRun_runs_without_lock :
    (doRunTrace true "repo-summary" (some "success")).any ExecAct.isRunWorkflow = true
    ∧ (doRunTrace true "repo-summary" (some "success")).all
        (fun a => !a.isTryAcquire) = true := by
  decide

/-- C3 (amended): the daemon's scheduled execution path does respect
the lock discipline — the callback runs the workflow only when the lock
acquisition succeeded, and whenever acquisition succeeded the trace
ends with the deferred lock release (every exit path releases); the
manual `run` command, however, runs the workflow without acquiring the
lock (see the counterexample). -/
theorem execute_lock_discipline (lockRes : Except LockErr Unit) (loadOk : Bool)
    (runStatus : Option String) (job : JobM) :
    ((executeTrace lockRes loadOk runStatus job).any ExecAct.isRunWorkflow = true →
      lockRes = Except.ok ())
    ∧ (lockRes = Except.ok () →
      (executeTrace lockRes loadOk runStatus job).getLast? =
        some (ExecAct.releaseLock job.name)) := by
  constructor
  · intro h
    cases lockRes with
    | ok u => cases u; rfl
    | error e => simp [executeTrace, ExecAct.isRunWorkflow] at h
  · intro h
    subst h
    cases loadOk with
    | false => rfl
    | true =>
      cases runStatus with
      | none => rfl
      | some st => rfl

theorem execute_lock_discipline_witness :
    (Except.ok () : Except LockErr Unit) = Except.ok ()
    ∧ (executeTrace (Except.ok ()) true (some "success") nyJob).getLast? =
        some (ExecAct.releaseLock "morning-report") :=
  ⟨(execute_lock_discipline (Except.ok ()) true (some "success") nyJob).1 (by decide),
   (execute_lock_discipline (Except.ok ()) true (some "success") nyJob).2 rfl⟩

/-- C7: a held lock is reported as the distinguishable "already
running" condition (not a generic error) and the daemon's callback
treats it as a benign skip — its whole trace is the acquisition
attempt: no workflow load, no run, no run-result update; any other
OS-level failure (open failure or a non-EWOULDBLOCK flock error) yields
the generic error. -/
theorem acquireLock_contention (loadOk : Bool) (runStatus : Option String)
    (job : JobM) (flockRes : FlockOutcome) :
    acquireLock true FlockOutcome.wouldBlock = Except.error LockErr.alreadyRunning
    ∧ acquireLock true FlockOutcome.otherErr = Except.error LockErr.generic
    ∧ acquireLock false flockRes = Except.error LockErr.generic
    ∧ executeTrace (acquireLock true FlockOutcome.wouldBlock) loadOk runStatus job =
        [ExecAct.tryAcquire job.name] :=
  ⟨rfl, rfl, rfl, rfl⟩

/-- C10: fetching a job by a name present in no row yields `(nil, nil)`
— an `Option`-style absent result with no error — while a genuine
database failure yields an error. -/
theorem getJob_absent (rows : List JobM) (name : String)
    (h : ∀ j ∈ rows, j.name ≠ name) :
    GetJob false rows name = Except.ok none
    ∧ GetJob true rows name = Except.error "query failed" := by
  refine ⟨?_, rfl⟩
  unfold GetJob
  rw [if_neg (by simp)]
  rw [List.find?_eq_none.mpr (fun j hj => by simp [h j hj])]

theorem getJob_absent_witness :
    (∀ j ∈ [nyJob], JobM.name j ≠ "other")
    ∧ GetJob false [nyJob] "other" = Except.ok none :=
  ⟨by decide, (getJob_absent [nyJob] "other" (by decide)).1⟩

end Devagent
